import Mathlib

/-!
Verification of the trip-leg post-processing, polyline decoding and
identifier-conversion logic of the `go-trafiklab` client library
(`sl/journeyplanner/journeyplanner.go`, `slidentifiers/slidentifiers.go`).

Modelling conventions:
* Go `int` is modelled as `Int`.  All arithmetic performed by the code in
  scope (summing walking distances, splitting IDs of at most seven decimal
  digits) stays far below 2^63, so 64-bit wrap-around is unreachable and is
  not modelled.
* Go `float64` fields are modelled as `Rat`.  The polyline decoder only
  copies and adds coordinates; the claims under study describe exactly those
  additions, so the modelling of the numeric type does not affect them.
* Go strings in the identifier converters are modelled as `List Char`; all
  identifiers in scope are ASCII, where Go's byte indexing and rune
  iteration coincide and `unicode.IsDigit` coincides with `Char.isDigit`.
* A Go runtime panic (index out of range) is modelled as `none` of an
  `Option` result.
-/

namespace Trafiklab

/-- `Location` struct of `journeyplanner.go`. -/
structure Location where
  ID            : String
  ExtID         : String
  Name          : String
  type          : String
  Lon           : Rat
  Lat           : Rat
  HasMainMast   : Bool
  MainMastID    : String
  MainMastExtID : String
  Date          : String
  RtDate        : String
  Time          : String
  RtTime        : String
  Track         : String
  PrognosisType : String
  deriving DecidableEq

/-- `JourneyDetail` struct of `journeyplanner.go`. -/
structure JourneyDetail where
  Ref : String
  deriving DecidableEq

/-- `Message` struct of `journeyplanner.go`. -/
structure Message where
  ID        : String
  Act       : Bool
  Head      : String
  Text      : String
  Priority  : Int
  Category  : String
  Products  : Int
  StartTime : String
  StartDate : String
  EndTime   : String
  EndDate   : String
  deriving DecidableEq

/-- `Note` struct of `journeyplanner.go`. -/
structure Note where
  Priority : Int
  Text     : String
  deriving DecidableEq

/-- `Product` struct of `journeyplanner.go`. -/
structure Product where
  CategoryCode      : Int
  CategoryIn        : String
  CategoryOut       : String
  CateogryOutLocale : String
  CategoryOutShort  : String
  Line              : String
  Name              : String
  Num               : Int
  Operator          : String
  OperatorCode      : String
  Admin             : String
  deriving DecidableEq

/-- `Polyline` struct of `journeyplanner.go`.  The Go field `Type` is named
`type` here because `Type` is reserved in Lean. -/
structure Polyline where
  type                       : String
  Dim                        : String
  CoordinatesEncryptedString : String
  Delta                      : Bool
  Crd                        : List Rat
  deriving DecidableEq

/-- `Stop` struct of `journeyplanner.go`. -/
structure Stop where
  DepartureDate   : String
  RtDepartureDate : String
  DepartureTime   : String
  RtDepartureTime : String
  ArrivalDate     : String
  RtArrivalDate   : String
  ArrivalTime     : String
  RtArrivalTime   : String
  RouteIdx        : Int
  Name            : String
  ID              : String
  ExtId           : String
  Lon             : Rat
  Lat             : Rat
  HasMainMast     : Bool
  MainMastID      : String
  MainMastExtID   : String
  DepartureTrack  : String
  ArrivalTrack    : String
  deriving DecidableEq

/-- `Leg` struct of `journeyplanner.go`.  Go nil-able pointers become
`Option`, slices become lists.  The Go field `Type` is named `type`. -/
structure Leg where
  Distance      : Int
  type          : String
  Idx           : Int
  Cancelled     : Bool
  Name          : String
  Number        : Int
  Category      : String
  Reachable     : Bool
  Direction     : String
  Origin        : Location
  Destination   : Location
  JourneyDetail : JourneyDetail
  Messages      : List Message
  Notes         : List Note
  JourneyStatus : String
  Product       : Option Product
  Polyline      : Option Polyline
  Stops         : List Stop
  deriving DecidableEq

/-- `FareItem` struct of `journeyplanner.go`. -/
structure FareItem where
  Name        : String
  Description : String
  Currency    : String
  Price       : Int
  deriving DecidableEq

/-- `FareSetItem` struct of `journeyplanner.go`. -/
structure FareSetItem where
  Name        : String
  Description : String
  Fares       : List FareItem
  deriving DecidableEq

/-- `ServiceDay` struct of `journeyplanner.go`. -/
structure ServiceDay where
  SDaysR              : String
  SDaysI              : String
  SDaysB              : String
  PlanningPeriodBegin : String
  PlanningPeriodEnd   : String
  deriving DecidableEq

/-- `Trip` struct of `journeyplanner.go`. -/
structure Trip where
  Idx         : String
  CtxRecon    : String
  Checksum    : String
  TripID      : String
  Valid       : String
  Duration    : String
  ServiceDays : List ServiceDay
  Legs        : List Leg
  Tariff      : List FareSetItem
  deriving DecidableEq

/-- The Go zero value `Location{}`. -/
def locationZero : Location :=
  ⟨"", "", "", "", 0, 0, false, "", "", "", "", "", "", "", ""⟩

/-- The Go zero value `Leg{}` (`&Leg{}` placeholders in
`EachLegContextual` point at such a value). -/
def legZero : Leg :=
  ⟨0, "", 0, false, "", 0, "", false, "", locationZero, locationZero,
   ⟨""⟩, [], [], "", none, none, []⟩

/-! ## `Trip.CombineWalks`, first loop: merging adjacent walks

The Go loop builds `combinedLegs` by appending each leg at the back; a
`"WALK"` leg whose predecessor in `combinedLegs` is also a `"WALK"` is
instead folded into that predecessor (adding its distance and overwriting
the destination).  `goMergeStep` is the loop body acting on the
accumulator; appending at the back and editing the last element mirror the
Go slice operations. -/

/-- One iteration of the first (`combine adjecent walks`) loop of
`Trip.CombineWalks`. -/
def goMergeStep (combinedLegs : List Leg) (leg : Leg) : List Leg :=
  if leg.type ≠ "WALK" then combinedLegs ++ [leg]
  else
    match combinedLegs.getLast? with
    | some prevWalk =>
        if prevWalk.type = "WALK" then
          combinedLegs.dropLast ++
            [{ prevWalk with
                Distance := prevWalk.Distance + leg.Distance,
                Destination := leg.Destination }]
        else combinedLegs ++ [leg]
    | none => combinedLegs ++ [leg]

/-- The first loop of `Trip.CombineWalks`: merge adjacent walk legs. -/
def goMerge (legs : List Leg) : List Leg :=
  legs.foldl goMergeStep []

/-! ## `Trip.CombineWalks`, second loop: removing short walks

The Go loop carries a boolean `intermediate` flag: it is raised when a
non-walk leg is seen and forced down on the final index.  `goPruneAux`
carries the flag, the running index `i` and the total length, exactly as
the Go loop does. -/

/-- The body and recursion of the second (`remove short walks`) loop of
`Trip.CombineWalks`; `total` is `len(combinedLegs)`. -/
def goPruneAux (total : Nat) : List Leg → Nat → Bool → List Leg
  | [], _, _ => []
  | leg :: rest, i, intermediate =>
    let inter1 := if leg.type ≠ "WALK" then true else intermediate
    let inter2 := if total - 1 = i then false else inter1
    if leg.type ≠ "WALK" ∨
        ((¬inter2 = true ∧ leg.Distance > 40) ∨
          (inter2 = true ∧ leg.Distance > 150)) then
      leg :: goPruneAux total rest (i + 1) inter2
    else
      goPruneAux total rest (i + 1) inter2

/-- The second loop of `Trip.CombineWalks`: drop short walk legs. -/
def goPrune (combinedLegs : List Leg) : List Leg :=
  goPruneAux combinedLegs.length combinedLegs 0 false

/-- `Trip.CombineWalks` as a function on the leg list. -/
def combineWalksLegs (legs : List Leg) : List Leg :=
  goPrune (goMerge legs)

/-- `Trip.CombineWalks` (the Go method mutates `trip.Legs`; here the
updated trip is returned). -/
def Trip.CombineWalks (trip : Trip) : Trip :=
  { trip with Legs := combineWalksLegs trip.Legs }

/-! ## Specification-side description of `CombineWalks`

The following definitions transcribe the specification's wording, to be
compared with the Go-shaped definitions above. -/

/-- Walk test used throughout: is this leg a `"WALK"` leg? -/
def isWalk (leg : Leg) : Bool := leg.type = "WALK"

/-- Spec-side merge: each maximal run of adjacent `"WALK"` legs becomes a
single walk whose distance is the sum of the run's distances, whose origin
(and every field other than distance and destination) comes from the first
walk of the run, and whose destination is the last walk's destination;
non-walk legs are kept unchanged and in order.
(`(rest.takeWhile isWalk).getLastD leg` is the last leg of the run
`leg :: rest.takeWhile isWalk`.) -/
def specMergeRuns : List Leg → List Leg
  | [] => []
  | leg :: rest =>
    if isWalk leg then
      let run := leg :: rest.takeWhile isWalk
      { leg with
          Distance := (run.map Leg.Distance).sum,
          Destination := ((rest.takeWhile isWalk).getLastD leg).Destination }
        :: specMergeRuns (rest.dropWhile isWalk)
    else
      leg :: specMergeRuns rest
termination_by l => l.length
decreasing_by
  · simp only [List.length_cons]
    exact Nat.lt_succ_of_le (List.dropWhile_suffix (l := rest) isWalk).length_le
  · simp

/-- Spec-side "intermediate" predicate on a position of the merged list:
some non-`WALK` leg occurs strictly before it, and it is not the last
position. -/
def interAt (legs : List Leg) (i : Nat) : Bool :=
  (legs.take i).any (fun l => !isWalk l) && !(i = legs.length - 1)

/-- Spec-side retention test: a leg at position `i` of the merged list
`legs` is retained iff it is not a walk, or it is a non-intermediate walk
of distance over 40, or an intermediate walk of distance over 150. -/
def retainAt (legs : List Leg) (i : Nat) (leg : Leg) : Bool :=
  !isWalk leg ||
    (!interAt legs i && decide (leg.Distance > 40)) ||
    (interAt legs i && decide (leg.Distance > 150))

/-- Spec-side pruning of the merged list, position by position. -/
def specPruneAux (full : List Leg) : Nat → List Leg → List Leg
  | _, [] => []
  | i, leg :: rest =>
    if retainAt full i leg then leg :: specPruneAux full (i + 1) rest
    else specPruneAux full (i + 1) rest

/-- Spec-side pruning of a merged leg list. -/
def specPrune (legs : List Leg) : List Leg := specPruneAux legs 0 legs

/-- Spec-side `CombineWalks`: merge maximal walk runs, then prune. -/
def specCombineWalks (legs : List Leg) : List Leg :=
  specPrune (specMergeRuns legs)

/-! ## A structural reformulation of the pruning loop

`pruneS` carries only the "have we passed a non-walk leg" flag; "last
position" becomes "singleton remainder".  It is proved equal to both the
Go-shaped `goPrune` and the positional `specPrune`, and is the convenient
form for the idempotence argument. -/

/-- Structural form of the pruning loop: `seen` records whether a non-walk
leg occurred before the current suffix. -/
def pruneS : Bool → List Leg → List Leg
  | _, [] => []
  | _, [leg] => if !isWalk leg || decide (leg.Distance > 40) then [leg] else []
  | seen, leg :: next :: rest =>
    let keep := !isWalk leg ||
      (if seen then decide (leg.Distance > 150) else decide (leg.Distance > 40))
    let tail := pruneS (seen || !isWalk leg) (next :: rest)
    if keep then leg :: tail else tail

/-- No two adjacent legs of the list are both walks. -/
def noAdjWalks : List Leg → Prop
  | [] => True
  | [_] => True
  | a :: b :: rest => (isWalk a → ¬isWalk b) ∧ noAdjWalks (b :: rest)

/-! ## Concrete legs used by the claims' example trips -/

/-- A named location, for making merge destinations visible. -/
def demoLoc (s : String) : Location := { locationZero with Name := s }

/-- A walk leg of distance `d` ending at `dest`. -/
def demoWalk (d : Int) (dest : String) : Leg :=
  { legZero with type := "WALK", Distance := d, Destination := demoLoc dest }

/-- A bus leg named `s`. -/
def demoBus (s : String) : Leg :=
  { legZero with
      type := "BUS",
      Name := s,
      Distance := 1000,
      Destination := demoLoc s }

/-! ## Equivalence of the Go merge loop with the spec-side description -/

theorem isWalk_iff (l : Leg) : isWalk l = true ↔ l.type = "WALK" := by
  simp [isWalk]

theorem isWalk_false_iff (l : Leg) : isWalk l = false ↔ l.type ≠ "WALK" := by
  simp [isWalk]

theorem leg_update_type (w : Leg) (d : Int) (u : Location) :
    ({ w with Distance := d, Destination := u } : Leg).type = w.type := rfl

theorem leg_update_self (w : Leg) :
    ({ w with Distance := w.Distance + 0, Destination := w.Destination } : Leg)
      = w := by
  cases w; simp

theorem leg_update_update (w : Leg) (a c : Int) (u v : Location) :
    ({ ({ w with Distance := a, Destination := u } : Leg) with
        Distance := c, Destination := v } : Leg)
      = { w with Distance := c, Destination := v } := by
  cases w; rfl

theorem getLastD_destination_congr (l : List Leg) (x y : Leg)
    (h : x.Destination = y.Destination) :
    (l.getLastD x).Destination = (l.getLastD y).Destination := by
  cases l with
  | nil => exact h
  | cons a l => simp only [List.getLastD_cons]

theorem specMergeRuns_nil : specMergeRuns [] = [] := by
  simp [specMergeRuns]

theorem specMergeRuns_cons_walk (leg : Leg) (rest : List Leg)
    (h : isWalk leg = true) :
    specMergeRuns (leg :: rest) =
      { leg with
          Distance :=
            leg.Distance + ((rest.takeWhile isWalk).map Leg.Distance).sum,
          Destination := ((rest.takeWhile isWalk).getLastD leg).Destination }
        :: specMergeRuns (rest.dropWhile isWalk) := by
  rw [specMergeRuns]
  simp [h]

theorem specMergeRuns_cons_nonwalk (leg : Leg) (rest : List Leg)
    (h : isWalk leg = false) :
    specMergeRuns (leg :: rest) = leg :: specMergeRuns rest := by
  rw [specMergeRuns]
  simp [h]

theorem goMergeStep_nonwalk (acc : List Leg) (leg : Leg)
    (h : isWalk leg = false) :
    goMergeStep acc leg = acc ++ [leg] := by
  rw [goMergeStep, if_pos ((isWalk_false_iff leg).mp h)]

theorem goMergeStep_walk_fresh (acc : List Leg) (leg : Leg)
    (h : isWalk leg = true)
    (hacc : ∀ w, acc.getLast? = some w → isWalk w = false) :
    goMergeStep acc leg = acc ++ [leg] := by
  rw [goMergeStep, if_neg (by simp [(isWalk_iff leg).mp h])]
  cases hl : acc.getLast? with
  | none => rfl
  | some prev =>
    have hp := (isWalk_false_iff prev).mp (hacc prev hl)
    simp only [hl]
    rw [if_neg hp]

theorem goMergeStep_walk_merge (acc : List Leg) (w leg : Leg)
    (hleg : isWalk leg = true) (hw : isWalk w = true) :
    goMergeStep (acc ++ [w]) leg =
      acc ++ [{ w with
        Distance := w.Distance + leg.Distance,
        Destination := leg.Destination }] := by
  simp [goMergeStep, (isWalk_iff leg).mp hleg, List.getLast?_concat,
    (isWalk_iff w).mp hw, List.dropLast_concat]

/-- Folding the Go merge step over a leading run of walks, starting from an
accumulator that ends in the walk `w`, folds the whole run into `w`. -/
theorem goMerge_run (rest : List Leg) : ∀ (acc : List Leg) (w : Leg),
    isWalk w = true →
    List.foldl goMergeStep (acc ++ [w]) rest =
      List.foldl goMergeStep
        (acc ++ [{ w with
            Distance :=
              w.Distance + ((rest.takeWhile isWalk).map Leg.Distance).sum,
            Destination :=
              ((rest.takeWhile isWalk).getLastD w).Destination }])
        (rest.dropWhile isWalk) := by
  induction rest with
  | nil =>
    intro acc w _
    simp [leg_update_self]
  | cons b rest ih =>
    intro acc w hw
    by_cases hb : isWalk b
    · have hw' :
        isWalk { w with
          Distance := w.Distance + b.Distance,
          Destination := b.Destination } = true := hw
      rw [List.foldl_cons, goMergeStep_walk_merge acc w b hb hw,
        ih acc _ hw', List.takeWhile_cons, if_pos hb, List.dropWhile_cons,
        if_pos hb, leg_update_update]
      have hdest : ((rest.takeWhile isWalk).getLastD
            { w with
                Distance := w.Distance + b.Distance,
                Destination := b.Destination }).Destination =
          ((b :: rest.takeWhile isWalk).getLastD w).Destination := by
        rw [List.getLastD_cons]
        exact getLastD_destination_congr _ _ _ rfl
      rw [hdest]
      simp [Int.add_assoc]
    · have hb' : isWalk b = false := by simpa using hb
      rw [List.takeWhile_cons, if_neg (by simp [hb']), List.dropWhile_cons,
        if_neg (by simp [hb'])]
      simp [leg_update_self]

/-- The first loop of `Trip.CombineWalks` computes the spec-side maximal-run
merge, relative to any accumulator that cannot merge with the first leg. -/
theorem goMerge_spec_aux : ∀ (n : Nat) (legs acc : List Leg),
    legs.length ≤ n →
    (∀ x w, legs.head? = some x → isWalk x = true →
      acc.getLast? = some w → isWalk w = false) →
    List.foldl goMergeStep acc legs = acc ++ specMergeRuns legs := by
  intro n
  induction n with
  | zero =>
    intro legs acc hlen _
    have : legs = [] := List.length_eq_zero.mp (Nat.le_zero.mp hlen)
    subst this
    simp [specMergeRuns_nil]
  | succ n ih =>
    intro legs acc hlen hacc
    match legs with
    | [] => simp [specMergeRuns_nil]
    | leg :: rest =>
      by_cases hw : isWalk leg
      · have hstep : goMergeStep acc leg = acc ++ [leg] :=
          goMergeStep_walk_fresh acc leg hw
            (fun w h => hacc leg w rfl hw h)
        rw [List.foldl_cons, hstep, goMerge_run rest acc leg hw]
        rw [ih (rest.dropWhile isWalk) _
          (le_trans (List.dropWhile_suffix (l := rest) isWalk).length_le
            (by simpa using Nat.le_of_succ_le_succ (by simpa using hlen)))
          (by
            intro x v hx hxw _
            have hnd := List.head?_dropWhile_not isWalk rest
            rw [hx] at hnd
            have hnd' : isWalk x = false := hnd
            rw [hnd'] at hxw
            exact absurd hxw (by simp))]
        rw [specMergeRuns_cons_walk leg rest hw, List.append_assoc]
        rfl
      · have hw' : isWalk leg = false := by simpa using hw
        have hstep : goMergeStep acc leg = acc ++ [leg] :=
          goMergeStep_nonwalk acc leg hw'
        rw [List.foldl_cons, hstep]
        rw [ih rest _
          (Nat.le_of_succ_le_succ (by simpa using hlen))
          (by
            intro x v hx hxw hv
            rw [List.getLast?_concat] at hv
            cases hv
            exact hw')]
        rw [specMergeRuns_cons_nonwalk leg rest hw', List.append_assoc]
        rfl

/-- The Go merge loop equals the spec-side maximal-run merge. -/
theorem goMerge_eq_specMergeRuns (legs : List Leg) :
    goMerge legs = specMergeRuns legs := by
  have := goMerge_spec_aux legs.length legs [] le_rfl
    (by intro x w _ _ h; cases h)
  simpa [goMerge] using this

/-! ## Equivalence of the Go pruning loop with `pruneS` and `specPrune` -/

/-- One-step unfolding of the Go pruning loop on a non-empty list. -/
theorem goPruneAux_cons (total i : Nat) (b : Bool) (leg : Leg)
    (tail : List Leg) :
    goPruneAux total (leg :: tail) i b =
      if leg.type ≠ "WALK" ∨
          ((¬(if total - 1 = i then false
              else if leg.type ≠ "WALK" then true else b) = true ∧
              leg.Distance > 40) ∨
            ((if total - 1 = i then false
              else if leg.type ≠ "WALK" then true else b) = true ∧
              leg.Distance > 150)) then
        leg :: goPruneAux total tail (i + 1)
          (if total - 1 = i then false
            else if leg.type ≠ "WALK" then true else b)
      else
        goPruneAux total tail (i + 1)
          (if total - 1 = i then false
            else if leg.type ≠ "WALK" then true else b) := rfl

/-- One-step unfolding of `pruneS` on a list of at least two legs. -/
theorem pruneS_cons_cons (b : Bool) (leg next : Leg) (rest : List Leg) :
    pruneS b (leg :: next :: rest) =
      if (!isWalk leg ||
          (if b then decide (leg.Distance > 150)
            else decide (leg.Distance > 40))) = true then
        leg :: pruneS (b || !isWalk leg) (next :: rest)
      else pruneS (b || !isWalk leg) (next :: rest) := rfl

/-- The Go pruning loop, started at index `i` with `total` set to the index
just past the remaining legs, equals `pruneS` with the same flag. -/
theorem goPruneAux_eq_pruneS : ∀ (suf : List Leg) (i : Nat) (b : Bool),
    goPruneAux (i + suf.length) suf i b = pruneS b suf := by
  intro suf
  induction suf with
  | nil => intro i b; rfl
  | cons leg tail ih =>
    intro i b
    cases tail with
    | nil =>
      by_cases hW : leg.type = "WALK" <;> by_cases h40 : leg.Distance > 40 <;>
        simp [goPruneAux, pruneS, isWalk, hW, h40, Nat.add_sub_cancel]
    | cons next rest =>
      have htot : i + (leg :: next :: rest).length
          = i + 1 + (next :: rest).length := by
        simp
        omega
      have hlast : ¬(i + 1 + (next :: rest).length - 1 = i) := by
        simp
        omega
      rw [htot, goPruneAux_cons, if_neg hlast,
        ih (i + 1) (if leg.type ≠ "WALK" then true else b),
        pruneS_cons_cons]
      by_cases hW : leg.type = "WALK" <;> cases b <;>
        by_cases h40 : leg.Distance > 40 <;>
        by_cases h150 : leg.Distance > 150 <;>
          simp [isWalk, hW, h40, h150]

/-- The Go pruning loop equals `pruneS` with an initially-lowered flag. -/
theorem goPrune_eq_pruneS (legs : List Leg) :
    goPrune legs = pruneS false legs := by
  have := goPruneAux_eq_pruneS legs 0 false
  simpa [goPrune] using this

/-- One-step unfolding of the positional spec-side pruning. -/
theorem specPruneAux_cons (full : List Leg) (i : Nat) (leg : Leg)
    (tail : List Leg) :
    specPruneAux full i (leg :: tail) =
      if retainAt full i leg then leg :: specPruneAux full (i + 1) tail
      else specPruneAux full (i + 1) tail := rfl

/-- The positional spec-side pruning of the suffix after `pre` equals
`pruneS` with flag "`pre` contains a non-walk leg". -/
theorem specPruneAux_eq_pruneS : ∀ (suf pre : List Leg),
    specPruneAux (pre ++ suf) pre.length suf
      = pruneS (pre.any fun l => !isWalk l) suf := by
  intro suf
  induction suf with
  | nil => intro pre; rfl
  | cons leg tail ih =>
    intro pre
    cases tail with
    | nil =>
      have hinter : interAt (pre ++ [leg]) pre.length = false := by
        simp [interAt]
      by_cases hW : leg.type = "WALK" <;> by_cases h40 : leg.Distance > 40 <;>
        simp [specPruneAux, pruneS, retainAt, hinter, isWalk, hW, h40]
    | cons next rest =>
      have hnl : ¬(pre.length = (pre ++ leg :: next :: rest).length - 1) := by
        simp
      have hinter : interAt (pre ++ leg :: next :: rest) pre.length
          = pre.any (fun l => !isWalk l) := by
        simp [interAt, List.take_left, hnl]
      have hrec : specPruneAux (pre ++ leg :: next :: rest) (pre.length + 1)
          (next :: rest)
          = pruneS ((pre ++ [leg]).any fun l => !isWalk l) (next :: rest) := by
        have happ : pre ++ leg :: next :: rest
            = (pre ++ [leg]) ++ next :: rest := by simp
        have hlen : pre.length + 1 = (pre ++ [leg]).length := by simp
        rw [happ, hlen]
        exact ih (pre ++ [leg])
      have hany : ((pre ++ [leg]).any fun l => !isWalk l)
          = ((pre.any fun l => !isWalk l) || !isWalk leg) := by
        simp
      rw [specPruneAux_cons, hrec, hany, pruneS_cons_cons]
      simp only [retainAt, hinter]
      generalize (pre.any fun l => !isWalk l) = b
      by_cases hW : leg.type = "WALK" <;> cases b <;>
        by_cases h40 : leg.Distance > 40 <;>
        by_cases h150 : leg.Distance > 150 <;>
          simp [isWalk, hW, h40, h150]

/-- The spec-side pruning of a whole list equals `pruneS false`. -/
theorem specPrune_eq_pruneS (legs : List Leg) :
    specPrune legs = pruneS false legs := by
  have := specPruneAux_eq_pruneS legs []
  simpa [specPrune] using this

/-- `Trip.CombineWalks` computes exactly the spec-side merge followed by
the spec-side positional pruning. -/
theorem combineWalksLegs_eq_spec (legs : List Leg) :
    combineWalksLegs legs = specCombineWalks legs := by
  rw [combineWalksLegs, specCombineWalks, goMerge_eq_specMergeRuns,
    goPrune_eq_pruneS, specPrune_eq_pruneS]

/-! ## Idempotence of `CombineWalks` -/

/-- The pruning pass is idempotent (on every list, for every flag). -/
theorem pruneS_idem : ∀ (l : List Leg) (b : Bool),
    pruneS b (pruneS b l) = pruneS b l := by
  intro l
  induction l with
  | nil => intro b; rfl
  | cons leg tail ih =>
    intro b
    cases tail with
    | nil =>
      by_cases hW : leg.type = "WALK" <;> by_cases h40 : leg.Distance > 40 <;>
        simp [pruneS, isWalk, hW, h40]
    | cons next rest =>
      by_cases hK : (!isWalk leg ||
          (if b then decide (leg.Distance > 150)
            else decide (leg.Distance > 40))) = true
      · rw [pruneS_cons_cons, if_pos hK]
        cases htail : pruneS (b || !isWalk leg) (next :: rest) with
        | nil =>
          have hC : (!isWalk leg || decide (leg.Distance > 40)) = true := by
            by_cases hW : isWalk leg
            · have h' : (if b then decide (leg.Distance > 150)
                  else decide (leg.Distance > 40)) = true := by
                simpa [hW] using hK
              have h40 : leg.Distance > 40 := by
                cases b
                · simpa using h'
                · have h150 : leg.Distance > 150 := by simpa using h'
                  omega
              simp [h40]
            · have hw : isWalk leg = false := by simpa using hW
              simp [hw]
          simp [pruneS, hC]
        | cons u t' =>
          rw [pruneS_cons_cons, if_pos hK, ← htail, ih (b || !isWalk leg),
            htail]
      · rw [pruneS_cons_cons, if_neg hK]
        have hw : (!isWalk leg) = false := by
          cases h : (!isWalk leg)
          · rfl
          · exact absurd (by simp [h]) hK
        rw [hw, Bool.or_false]
        exact ih b

/-- The tail of a list without adjacent walks has no adjacent walks. -/
theorem noAdjWalks_tail (x : Leg) (xs : List Leg)
    (h : noAdjWalks (x :: xs)) : noAdjWalks xs := by
  cases xs with
  | nil => trivial
  | cons y ys => exact h.2

/-- Pruning keeps a leading non-walk leg in place. -/
theorem pruneS_nonwalk_head (b : Bool) (x : Leg) (xs : List Leg)
    (hx : isWalk x = false) : ∃ t, pruneS b (x :: xs) = x :: t := by
  cases xs with
  | nil => exact ⟨[], by simp [pruneS, hx]⟩
  | cons y ys =>
    exact ⟨_, by rw [pruneS_cons_cons, if_pos (by simp [hx])]⟩

/-- Pruning preserves the absence of adjacent walks. -/
theorem pruneS_noAdjWalks : ∀ (l : List Leg) (b : Bool),
    noAdjWalks l → noAdjWalks (pruneS b l) := by
  intro l
  induction l with
  | nil => intro b _; trivial
  | cons leg tail ih =>
    intro b h
    cases tail with
    | nil =>
      by_cases hW : leg.type = "WALK" <;> by_cases h40 : leg.Distance > 40 <;>
        simp [pruneS, isWalk, hW, h40] <;> trivial
    | cons next rest =>
      by_cases hK : (!isWalk leg ||
          (if b then decide (leg.Distance > 150)
            else decide (leg.Distance > 40))) = true
      · rw [pruneS_cons_cons, if_pos hK]
        have htail := ih (b || !isWalk leg) h.2
        by_cases hW : isWalk leg
        · have hnext : isWalk next = false := by
            have := h.1 hW
            simpa using this
          obtain ⟨t, ht⟩ := pruneS_nonwalk_head (b || !isWalk leg) next rest
            hnext
          rw [ht]
          rw [ht] at htail
          exact ⟨fun _ => by simp [hnext], htail⟩
        · cases hT : pruneS (b || !isWalk leg) (next :: rest) with
          | nil => trivial
          | cons u t' =>
            rw [hT] at htail
            exact ⟨fun hw => absurd hw (by simpa using hW), htail⟩
      · rw [pruneS_cons_cons, if_neg hK]
        exact ih _ h.2

/-- The merged list starts with a leg of the same type as the input's
first leg. -/
theorem specMergeRuns_cons_head (x : Leg) (xs : List Leg) :
    ∃ y t, specMergeRuns (x :: xs) = y :: t ∧ y.type = x.type := by
  by_cases hW : isWalk x
  · exact ⟨_, _, specMergeRuns_cons_walk x xs hW, rfl⟩
  · exact ⟨x, _, specMergeRuns_cons_nonwalk x xs (by simpa using hW), rfl⟩

/-- The merge pass produces a list without adjacent walks. -/
theorem specMergeRuns_noAdjWalks_aux : ∀ (n : Nat) (l : List Leg),
    l.length ≤ n → noAdjWalks (specMergeRuns l) := by
  intro n
  induction n with
  | zero =>
    intro l hl
    have : l = [] := List.length_eq_zero.mp (Nat.le_zero.mp hl)
    subst this
    rw [specMergeRuns_nil]
    trivial
  | succ n ih =>
    intro l hl
    match l with
    | [] => rw [specMergeRuns_nil]; trivial
    | x :: xs =>
      have hxs : xs.length ≤ n := Nat.le_of_succ_le_succ (by simpa using hl)
      by_cases hW : isWalk x
      · rw [specMergeRuns_cons_walk x xs hW]
        have h1 : noAdjWalks (specMergeRuns (xs.dropWhile isWalk)) :=
          ih _ (le_trans (List.dropWhile_suffix (l := xs) isWalk).length_le
            hxs)
        cases hl' : xs.dropWhile isWalk with
        | nil =>
          rw [specMergeRuns_nil]
          trivial
        | cons u t =>
          have hu : isWalk u = false := by
            have hnd := List.head?_dropWhile_not isWalk xs
            rw [hl'] at hnd
            exact hnd
          obtain ⟨y, t', hy, hty⟩ := specMergeRuns_cons_head u t
          rw [hl', hy] at h1
          rw [hy]
          refine ⟨fun _ => ?_, h1⟩
          have hyw : isWalk y = false := by
            simp only [isWalk, hty]
            exact hu
          simp [hyw]
      · have hw : isWalk x = false := by simpa using hW
        rw [specMergeRuns_cons_nonwalk x xs hw]
        have h1 := ih xs hxs
        cases hs : specMergeRuns xs with
        | nil => trivial
        | cons u t =>
          rw [hs] at h1
          exact ⟨fun hwx => absurd hwx (by simp [hw]), h1⟩

/-- The merge pass produces a list without adjacent walks. -/
theorem specMergeRuns_noAdjWalks (l : List Leg) :
    noAdjWalks (specMergeRuns l) :=
  specMergeRuns_noAdjWalks_aux l.length l le_rfl

/-- The merge pass is the identity on lists without adjacent walks. -/
theorem specMergeRuns_id : ∀ (l : List Leg),
    noAdjWalks l → specMergeRuns l = l := by
  intro l
  induction l with
  | nil => intro _; exact specMergeRuns_nil
  | cons x xs ih =>
    intro h
    by_cases hW : isWalk x
    · rw [specMergeRuns_cons_walk x xs hW]
      have htw : xs.takeWhile isWalk = [] := by
        cases xs with
        | nil => rfl
        | cons u t =>
          have hu : isWalk u = false := by
            have := h.1 hW
            simpa using this
          rw [List.takeWhile_cons, if_neg (by simp [hu])]
      have hdw : xs.dropWhile isWalk = xs := by
        cases xs with
        | nil => rfl
        | cons u t =>
          have hu : isWalk u = false := by
            have := h.1 hW
            simpa using this
          rw [List.dropWhile_cons, if_neg (by simp [hu])]
      rw [htw, hdw]
      simp only [List.map_nil, List.sum_nil, List.getLastD_nil]
      rw [leg_update_self, ih (noAdjWalks_tail x xs h)]
    · rw [specMergeRuns_cons_nonwalk x xs (by simpa using hW)]
      rw [ih (noAdjWalks_tail x xs h)]

/-- `CombineWalks` on legs, in merged-then-`pruneS` form. -/
theorem combineWalksLegs_eq_pruneS_merge (legs : List Leg) :
    combineWalksLegs legs = pruneS false (specMergeRuns legs) := by
  rw [combineWalksLegs, goMerge_eq_specMergeRuns, goPrune_eq_pruneS]

/-- `CombineWalks` on legs is idempotent. -/
theorem combineWalksLegs_idem (legs : List Leg) :
    combineWalksLegs (combineWalksLegs legs) = combineWalksLegs legs := by
  rw [combineWalksLegs_eq_pruneS_merge legs,
    combineWalksLegs_eq_pruneS_merge (pruneS false (specMergeRuns legs)),
    specMergeRuns_id _
      (pruneS_noAdjWalks _ false (specMergeRuns_noAdjWalks legs)),
    pruneS_idem]

/-! ## `Trip.EachLegContextual`

The Go method walks the legs with running `prevLeg` / `prevTransportLeg`
state (reset to `&Leg{}` placeholders initially), and per iteration
computes `nextLeg` (the following leg, or the placeholder at the last
index) and `nextTransportLeg` (the first non-walk leg after the current
index, or the placeholder).  We model the sequence of argument tuples the
visitor receives; the visitor's own effects (and its ability to abort the
iteration with an error) do not change the arguments of the calls made. -/

/-- The arguments of one visitor call of `Trip.EachLegContextual`. -/
structure LegCtx where
  leg : Leg
  prevLeg : Leg
  prevTransportLeg : Leg
  nextLeg : Leg
  nextTransportLeg : Leg
  i : Nat
  deriving DecidableEq

/-- The loop of `Trip.EachLegContextual`: `remaining` is `trip.Legs[i:]`,
`prevLeg`/`prevTransportLeg` the running state. -/
def eachLegAux : List Leg → Nat → Leg → Leg → List LegCtx
  | [], _, _, _ => []
  | leg :: rest, i, prevLeg, prevTransportLeg =>
    let nextLeg := rest.head?.getD legZero
    let nextTransportLeg :=
      (rest.find? (fun l => decide (l.type ≠ "WALK"))).getD legZero
    ⟨leg, prevLeg, prevTransportLeg, nextLeg, nextTransportLeg, i⟩ ::
      eachLegAux rest (i + 1) leg
        (if leg.type ≠ "WALK" then leg else prevTransportLeg)

/-- The visitor calls made by `Trip.EachLegContextual`. -/
def eachLegContextualCalls (trip : Trip) : List LegCtx :=
  eachLegAux trip.Legs 0 legZero legZero

/-- A `Trip` whose only populated field is its leg list (the method under
study reads nothing else). -/
def demoTrip (legs : List Leg) : Trip :=
  ⟨"", "", "", "", "", "", [], legs, []⟩

/-! ## `Polyline.LatLng`

The Go method allocates `len(p.Crd)/2` pairs and writes
`path[x][y] = coord` for `i < 2` and `path[x][y] = path[x-1][y] + coord`
for `i ≥ 2`, where `x = i/2`, `y = i%2`.  The `p.Delta` field is never
consulted.  When `len(p.Crd)` is odd, the write for the final coordinate
targets `path[len/2]`, which is out of range: the method panics with an
index-out-of-range runtime error.  The panic is modelled as `none`. -/

/-- Running-sum pass of `Polyline.LatLng` over the coordinates after the
first pair; `p` is the previously emitted pair.  (The singleton case is
unreachable for even-length input.) -/
def latLngPairs : Rat × Rat → List Rat → List (Rat × Rat)
  | _, [] => []
  | _, [_] => []
  | p, a :: b :: rest => (p.1 + a, p.2 + b) :: latLngPairs (p.1 + a, p.2 + b) rest

/-- `Polyline.LatLng` as a function of the coordinate list; `none` models
the index-out-of-range panic on odd-length input. -/
def latLng (crd : List Rat) : Option (List (Rat × Rat)) :=
  if crd.length % 2 = 0 then
    some (match crd with
      | [] => []
      | [_] => []
      | a :: b :: rest => (a, b) :: latLngPairs (a, b) rest)
  else none

/-- `Polyline.LatLng` (note: `p.Delta` is not read). -/
def Polyline.LatLng (p : Polyline) : Option (List (Rat × Rat)) :=
  latLng p.Crd

/-! ### Properties of the polyline running-sum pass -/

theorem latLngPairs_length : ∀ (n : Nat) (rest : List Rat) (p : Rat × Rat),
    rest.length ≤ n → (latLngPairs p rest).length = rest.length / 2 := by
  intro n
  induction n with
  | zero =>
    intro rest p h
    have : rest = [] := List.length_eq_zero.mp (Nat.le_zero.mp h)
    subst this
    rfl
  | succ n ih =>
    intro rest p h
    match rest with
    | [] => rfl
    | [x] => simp [latLngPairs]
    | a :: b :: t =>
      have ht : t.length ≤ n := by
        simp at h
        omega
      simp only [latLngPairs, List.length_cons]
      rw [ih t _ ht]
      omega

theorem latLngPairs_idx : ∀ (n : Nat) (rest : List Rat) (p : Rat × Rat)
    (k : Nat) (x y : Rat × Rat), rest.length ≤ n →
    (latLngPairs p rest)[k]? = some x →
    (latLngPairs p rest)[k + 1]? = some y →
    ∃ a b, rest[2 * k + 2]? = some a ∧ rest[2 * k + 3]? = some b ∧
      y = (x.1 + a, x.2 + b) := by
  intro n
  induction n with
  | zero =>
    intro rest p k x y h hx hy
    have : rest = [] := List.length_eq_zero.mp (Nat.le_zero.mp h)
    subst this
    simp [latLngPairs] at hx
  | succ n ih =>
    intro rest p k x y h hx hy
    match rest with
    | [] => simp [latLngPairs] at hx
    | [c] => simp [latLngPairs] at hx
    | a :: b :: t =>
      simp only [latLngPairs] at hx hy
      cases k with
      | zero =>
        rw [List.getElem?_cons_zero] at hx
        rw [List.getElem?_cons_succ] at hy
        match t with
        | [] => simp [latLngPairs] at hy
        | [c] => simp [latLngPairs] at hy
        | c :: d :: t' =>
          simp only [latLngPairs, List.getElem?_cons_zero] at hy
          refine ⟨c, d, by simp, by simp, ?_⟩
          cases hx
          cases hy
          rfl
      | succ k =>
        rw [List.getElem?_cons_succ] at hx hy
        have ht : t.length ≤ n := by
          simp at h
          omega
        obtain ⟨a', b', h1, h2, h3⟩ := ih t (p.1 + a, p.2 + b) k x y ht hx hy
        refine ⟨a', b', ?_, ?_, h3⟩
        · have he : 2 * (k + 1) + 2 = (2 * k + 2) + 1 + 1 := by omega
          rw [he, List.getElem?_cons_succ, List.getElem?_cons_succ]
          exact h1
        · have he : 2 * (k + 1) + 3 = (2 * k + 3) + 1 + 1 := by omega
          rw [he, List.getElem?_cons_succ, List.getElem?_cons_succ]
          exact h2

/-- On even-length input, `latLng` succeeds and its output is the
delta-decoding: half as many entries, first pair copied, every later pair
the input pair summed with the previous output pair, axis by axis. -/
theorem latLng_even_spec (crd : List Rat) (hev : crd.length % 2 = 0) :
    ∃ l, latLng crd = some l ∧
      l.length = crd.length / 2 ∧
      (∀ a b, crd[0]? = some a → crd[1]? = some b → l[0]? = some (a, b)) ∧
      (∀ k x y, l[k]? = some x → l[k + 1]? = some y →
        ∃ a b, crd[2 * (k + 1)]? = some a ∧ crd[2 * (k + 1) + 1]? = some b ∧
          y = (x.1 + a, x.2 + b)) := by
  match crd with
  | [] =>
    refine ⟨[], by simp [latLng], by simp, ?_, ?_⟩
    · intro a b ha _
      simp at ha
    · intro k x y hx _
      simp at hx
  | [c] => simp at hev
  | a :: b :: t =>
    refine ⟨(a, b) :: latLngPairs (a, b) t,
      by rw [latLng.eq_def, if_pos hev], ?_, ?_, ?_⟩
    · simp only [List.length_cons]
      rw [latLngPairs_length t.length t _ le_rfl]
      omega
    · intro a' b' ha hb
      simp only [List.getElem?_cons_zero] at ha
      rw [List.getElem?_cons_succ, List.getElem?_cons_zero] at hb
      cases ha
      cases hb
      simp
    · intro k x y hx hy
      cases k with
      | zero =>
        rw [List.getElem?_cons_zero] at hx
        rw [List.getElem?_cons_succ] at hy
        match t with
        | [] => simp [latLngPairs] at hy
        | [c] => simp [latLngPairs] at hy
        | c :: d :: t' =>
          simp only [latLngPairs, List.getElem?_cons_zero] at hy
          refine ⟨c, d, by simp, by simp, ?_⟩
          cases hx
          cases hy
          rfl
      | succ k =>
        rw [List.getElem?_cons_succ] at hx hy
        obtain ⟨a', b', h1, h2, h3⟩ :=
          latLngPairs_idx t.length t (a, b) k x y le_rfl hx hy
        refine ⟨a', b', ?_, ?_, h3⟩
        · have he : 2 * (k + 1 + 1) = (2 * k + 2) + 1 + 1 := by omega
          rw [he, List.getElem?_cons_succ, List.getElem?_cons_succ]
          exact h1
        · have he : 2 * (k + 1 + 1) + 1 = (2 * k + 3) + 1 + 1 := by omega
          rw [he, List.getElem?_cons_succ, List.getElem?_cons_succ]
          exact h2

/-- On odd-length input, `latLng` panics (`none`); no value and no error
value are produced. -/
theorem latLng_odd_none (crd : List Rat) (hodd : crd.length % 2 = 1) :
    latLng crd = none := by
  rw [latLng.eq_def, if_neg]
  omega

/-! ## `slidentifiers.go`: HAFAS / EFA / legacy ID conversion

Go strings are modelled as `List Char` (all identifiers in scope are
ASCII, where byte indexing and rune iteration agree and `unicode.IsDigit`
agrees with `Char.isDigit`); `none` models a non-nil `error` return. -/

/-- Value of a decimal digit string (the accumulation loop inside Go's
`strconv.Atoi`). -/
def digitsVal (s : List Char) : Nat :=
  s.foldl (fun acc c => 10 * acc + (c.toNat - 48)) 0

/-- Go `strconv.Atoi`.  Accepts an optional sign followed by at least one
decimal digit.  The int64-overflow rejection of Atoi is not modelled: the
call sites in `slidentifiers.go` pass at most seven digits. -/
def atoi (s : List Char) : Option Int :=
  match s with
  | [] => none
  | c :: t =>
    if c = '+' then
      if t ≠ [] ∧ t.all Char.isDigit then some (digitsVal t : Int) else none
    else if c = '-' then
      if t ≠ [] ∧ t.all Char.isDigit then some (-(digitsVal t : Int)) else none
    else if (c :: t).all Char.isDigit then some (digitsVal (c :: t) : Int)
    else none

/-- Decimal digit characters of a natural number, with a fuel argument so
that the recursion is structural (and hence evaluates inside the kernel);
`natChars` supplies enough fuel, and `natCharsAux_congr` shows the result
does not depend on the fuel. -/
def natCharsAux : Nat → Nat → List Char
  | 0, _ => []
  | fuel + 1, n =>
    if n < 10 then [Char.ofNat (48 + n)]
    else natCharsAux fuel (n / 10) ++ [Char.ofNat (48 + n % 10)]

/-- Decimal digit characters of a natural number (`fmt` verb `%d`). -/
def natChars (n : Nat) : List Char := natCharsAux (n + 1) n

theorem natCharsAux_congr : ∀ (n f1 f2 : Nat), n < f1 → n < f2 →
    natCharsAux f1 n = natCharsAux f2 n := by
  intro n
  induction n using Nat.strong_induction_on with
  | _ n ih =>
    intro f1 f2 h1 h2
    match f1, f2 with
    | fa + 1, fb + 1 =>
      by_cases hn : n < 10
      · simp [natCharsAux, hn]
      · have hd : n / 10 < n := Nat.div_lt_self (by omega) (by omega)
        simp only [natCharsAux, if_neg hn]
        rw [ih (n / 10) hd (fa) (fb) (by omega) (by omega)]

/-- The recursion equation `natChars` satisfies. -/
theorem natChars_unfold (n : Nat) :
    natChars n = if n < 10 then [Char.ofNat (48 + n)]
      else natChars (n / 10) ++ [Char.ofNat (48 + n % 10)] := by
  by_cases hn : n < 10
  · simp [natChars, natCharsAux, hn]
  · have hd : n / 10 < n := Nat.div_lt_self (by omega) (by omega)
    simp only [natChars, natCharsAux, if_neg hn]
    rw [natCharsAux_congr (n / 10) n (n / 10 + 1) hd (by omega)]
    simp [natCharsAux]

/-- Zero padding of the `fmt` verbs `%02d` / `%05d`: the decimal form is
left-padded with zeros to the width, after the minus sign for a negative
value (negative values are unreachable from digit-string inputs). -/
def intPad (w : Nat) (n : Int) : List Char :=
  if n < 0 then
    '-' :: (List.replicate (w - 1 - (natChars n.natAbs).length) '0'
      ++ natChars n.natAbs)
  else
    List.replicate (w - (natChars n.toNat).length) '0' ++ natChars n.toNat

/-- `ConvertIDToHafas` of `slidentifiers.go`: IDs longer than 7 characters
are returned unchanged; otherwise the value is split as
`firstTwoDigits = id / 100000`, `lastFiveDigits = id % 100000` and
formatted `"3%02d1%05d"`.  `none` is the error return (Atoi failure). -/
def ConvertIDToHafas (sid : List Char) : Option (List Char) :=
  if sid.length > 7 then some sid
  else
    match atoi sid with
    | none => none
    | some id =>
      let firstTwoDigits := id.tdiv 100000
      let lastFiveDigits := id.tmod 100000
      some ('3' :: intPad 2 firstTwoDigits ++ '1' :: intPad 5 lastFiveDigits)

/-- `ConvertHafasToEFA` of `slidentifiers.go`: validates the HAFAS ID
(9 characters, leading `'3'`, all digits), extracts positions
2,1,4,5,6,7,8 (the characters `G F E D C B A` of the Go comments),
re-checks numericity with Atoi, validates the prefix (9 characters, all
digits) and returns prefix ++ extracted site number.  The nine-way match
is unreachable in its wildcard case because the length was checked. -/
def ConvertHafasToEFA (hafasID pfx : List Char) : Option (List Char) :=
  if hafasID.length ≠ 9 then none
  else if hafasID.head?.getD ' ' ≠ '3' then none
  else if ¬hafasID.all Char.isDigit then none
  else
    match hafasID with
    | x :: f :: g :: y :: e :: d :: c :: b :: a :: [] =>
      let extractedSiteNumber := [g, f, e, d, c, b, a]
      match atoi extractedSiteNumber with
      | none => none
      | some _ =>
        if pfx.length ≠ 9 then none
        else if ¬pfx.all Char.isDigit then none
        else some (pfx ++ extractedSiteNumber)
    | _ => none

/-! ### Digit-string arithmetic -/

theorem digitsVal_from : ∀ (t : List Char) (acc : Nat),
    t.foldl (fun a c => 10 * a + (c.toNat - 48)) acc
      = acc * 10 ^ t.length + digitsVal t := by
  intro t
  induction t with
  | nil => intro acc; simp [digitsVal]
  | cons c t ih =>
    intro acc
    rw [List.foldl_cons, ih]
    have h2 : digitsVal (c :: t)
        = (c.toNat - 48) * 10 ^ t.length + digitsVal t := by
      rw [digitsVal, List.foldl_cons,
        show 10 * 0 + (c.toNat - 48) = c.toNat - 48 by omega, ih]
    rw [h2, List.length_cons]
    ring

theorem digitsVal_cons (c : Char) (t : List Char) :
    digitsVal (c :: t) = (c.toNat - 48) * 10 ^ t.length + digitsVal t := by
  rw [digitsVal, List.foldl_cons,
    show 10 * 0 + (c.toNat - 48) = c.toNat - 48 by omega, digitsVal_from]

theorem digit_toNat_bounds (c : Char) (h : c.isDigit = true) :
    48 ≤ c.toNat ∧ c.toNat ≤ 57 := by
  simp [Char.isDigit] at h
  exact h

theorem digitsVal_lt : ∀ (s : List Char), s.all Char.isDigit = true →
    digitsVal s < 10 ^ s.length := by
  intro s
  induction s with
  | nil => intro _; simp [digitsVal]
  | cons c t ih =>
    intro h
    rw [List.all_cons, Bool.and_eq_true] at h
    have hc := digit_toNat_bounds c h.1
    have hv : c.toNat - 48 ≤ 9 := by omega
    have ht := ih h.2
    have h10 : 0 < 10 ^ t.length := Nat.pos_pow_of_pos _ (by omega)
    rw [digitsVal_cons, List.length_cons, pow_succ]
    nlinarith [ht, hv, h10]

theorem natChars_all_digit : ∀ n : Nat, (natChars n).all Char.isDigit = true := by
  intro n
  induction n using Nat.strong_induction_on with
  | _ n ih =>
    rw [natChars_unfold]
    by_cases hn : n < 10
    · rw [if_pos hn]
      interval_cases n <;> decide
    · rw [if_neg hn, List.all_append]
      have h1 := ih (n / 10) (Nat.div_lt_self (by omega) (by omega))
      have h2 : ([Char.ofNat (48 + n % 10)]).all Char.isDigit = true := by
        have hm : n % 10 < 10 := Nat.mod_lt _ (by omega)
        revert hm
        generalize n % 10 = m
        intro hm
        interval_cases m <;> decide
      simp [h1, h2]

theorem digitsVal_natChars : ∀ n : Nat, digitsVal (natChars n) = n := by
  intro n
  induction n using Nat.strong_induction_on with
  | _ n ih =>
    rw [natChars_unfold]
    by_cases hn : n < 10
    · rw [if_pos hn]
      interval_cases n <;> decide
    · rw [if_neg hn, digitsVal, List.foldl_append]
      simp only [List.foldl_cons, List.foldl_nil]
      rw [show (natChars (n / 10)).foldl
          (fun a c => 10 * a + (c.toNat - 48)) 0
          = digitsVal (natChars (n / 10)) from rfl]
      rw [ih (n / 10) (Nat.div_lt_self (by omega) (by omega))]
      have hch : (Char.ofNat (48 + n % 10)).toNat = 48 + n % 10 := by
        have hm : n % 10 < 10 := Nat.mod_lt _ (by omega)
        revert hm
        generalize n % 10 = m
        intro hm
        interval_cases m <;> decide
      rw [hch]
      omega

theorem natChars_length_le : ∀ (n k : Nat), 1 ≤ k → n < 10 ^ k →
    (natChars n).length ≤ k := by
  intro n
  induction n using Nat.strong_induction_on with
  | _ n ih =>
    intro k hk hn
    rw [natChars_unfold]
    by_cases h10 : n < 10
    · rw [if_pos h10]
      simpa using hk
    · rw [if_neg h10, List.length_append]
      have hk2 : 2 ≤ k := by
        by_contra hc
        have hk1 : k = 1 := by omega
        subst hk1
        simp at hn
        omega
      have hdiv : n / 10 < 10 ^ (k - 1) := by
        have hpow : 10 ^ k = 10 ^ (k - 1) * 10 := by
          rw [← pow_succ]
          congr 1
          omega
        exact Nat.div_lt_of_lt_mul (by omega)
      have := ih (n / 10) (Nat.div_lt_self (by omega) (by omega))
        (k - 1) (by omega) hdiv
      simp only [List.length_cons, List.length_nil]
      omega

theorem digitsVal_replicate_zero : ∀ (j : Nat) (s : List Char),
    digitsVal (List.replicate j '0' ++ s) = digitsVal s := by
  intro j
  induction j with
  | zero => intro s; simp
  | succ j ih =>
    intro s
    rw [List.replicate_succ, List.cons_append, digitsVal, List.foldl_cons,
      show 10 * 0 + ('0'.toNat - 48) = 0 by decide]
    exact ih s

/-- `%0wd` of a natural number below `10^w` has width exactly `w`, is all
digits, and keeps the value. -/
theorem intPad_nat_spec (w m : Nat) (hw : 1 ≤ w) (hm : m < 10 ^ w) :
    (intPad w (m : Int)).length = w ∧
    (intPad w (m : Int)).all Char.isDigit = true ∧
    digitsVal (intPad w (m : Int)) = m := by
  have hneg : ¬((m : Int) < 0) := by
    have := Int.natCast_nonneg m
    omega
  have htn : ((m : Int)).toNat = m := Int.toNat_natCast m
  rw [intPad, if_neg hneg, htn]
  have hlen := natChars_length_le m w hw hm
  refine ⟨?_, ?_, ?_⟩
  · rw [List.length_append, List.length_replicate]
    omega
  · rw [List.all_append, natChars_all_digit m]
    simp [List.all_eq_true]
  · rw [digitsVal_replicate_zero, digitsVal_natChars]

theorem atoi_digits (s : List Char) (hne : s ≠ [])
    (hd : s.all Char.isDigit = true) :
    atoi s = some (digitsVal s : Int) := by
  match s with
  | c :: t =>
    have hc : c.isDigit = true := by
      rw [List.all_cons, Bool.and_eq_true] at hd
      exact hd.1
    have hplus : ¬(c = '+') := by
      intro h
      subst h
      exact absurd hc (by decide)
    have hminus : ¬(c = '-') := by
      intro h
      subst h
      exact absurd hc (by decide)
    simp only [atoi]
    rw [if_neg hplus, if_neg hminus, if_pos hd]

/-! ### Behaviour of the converters on valid inputs -/

/-- On a non-empty all-digit ID of at most 7 characters, `ConvertIDToHafas`
produces `'3'`, two digits carrying `value / 100000`, `'1'`, and five
digits carrying `value % 100000`. -/
theorem convertIDToHafas_digits (sid : List Char) (hne : sid ≠ [])
    (hlen : sid.length ≤ 7) (hd : sid.all Char.isDigit = true) :
    ∃ ds es,
      ConvertIDToHafas sid = some ('3' :: ds ++ '1' :: es) ∧
      ds.length = 2 ∧ es.length = 5 ∧
      ds.all Char.isDigit = true ∧ es.all Char.isDigit = true ∧
      digitsVal ds = digitsVal sid / 100000 ∧
      digitsVal es = digitsVal sid % 100000 := by
  have hv : digitsVal sid < 10 ^ 7 :=
    lt_of_lt_of_le (digitsVal_lt sid hd)
      (Nat.pow_le_pow_right (by omega) hlen)
  have hv' : digitsVal sid < 10000000 := by
    have h7 : (10 : Nat) ^ 7 = 10000000 := by norm_num
    omega
  have hq : digitsVal sid / 100000 < 10 ^ 2 := by
    have h2 : (10 : Nat) ^ 2 = 100 := by norm_num
    omega
  have hr : digitsVal sid % 100000 < 10 ^ 5 := by
    have h5 : (10 : Nat) ^ 5 = 100000 := by norm_num
    omega
  have hnot : ¬(sid.length > 7) := by omega
  obtain ⟨l2, a2, d2⟩ := intPad_nat_spec 2 (digitsVal sid / 100000)
    (by omega) hq
  obtain ⟨l5, a5, d5⟩ := intPad_nat_spec 5 (digitsVal sid % 100000)
    (by omega) hr
  refine ⟨intPad 2 ((digitsVal sid / 100000 : Nat) : Int),
    intPad 5 ((digitsVal sid % 100000 : Nat) : Int),
    ?_, l2, l5, a2, a5, by rw [d2], by rw [d5]⟩
  rw [ConvertIDToHafas, if_neg hnot, atoi_digits sid hne hd]
  rfl

/-- `ConvertHafasToEFA` on an explicit valid 9-character HAFAS ID. -/
theorem convertHafasToEFA_explicit (x f g y e d c b a : Char)
    (pfx : List Char)
    (hd : ([x, f, g, y, e, d, c, b, a] : List Char).all Char.isDigit = true)
    (hx : x = '3') (hp : pfx.length = 9) (hpd : pfx.all Char.isDigit = true) :
    ConvertHafasToEFA [x, f, g, y, e, d, c, b, a] pfx
      = some (pfx ++ [g, f, e, d, c, b, a]) := by
  have hd7 : ([g, f, e, d, c, b, a] : List Char).all Char.isDigit = true := by
    simp [List.all_cons] at hd ⊢
    tauto
  have hatoi := atoi_digits [g, f, e, d, c, b, a] (by simp) hd7
  have hd' := hd
  simp [List.all_cons] at hd'
  rw [ConvertHafasToEFA.eq_def]
  simp [hx, hd, hd', hp, hpd, hatoi]

/-- Composing the two conversions on a valid short ID and a valid prefix
succeeds and yields 16 characters. -/
theorem roundtrip_16 (sid pfx : List Char) (hne : sid ≠ [])
    (hlen : sid.length ≤ 7) (hd : sid.all Char.isDigit = true)
    (hp : pfx.length = 9) (hpd : pfx.all Char.isDigit = true) :
    ∃ h efa, ConvertIDToHafas sid = some h ∧
      ConvertHafasToEFA h pfx = some efa ∧ efa.length = 16 := by
  obtain ⟨ds, es, heq, hl2, hl5, ha2, ha5, _, _⟩ :=
    convertIDToHafas_digits sid hne hlen hd
  rcases ds with _ | ⟨d1, _ | ⟨d2, _ | ⟨d3, dt⟩⟩⟩ <;> simp at hl2
  rcases es with _ | ⟨e1, _ | ⟨e2, _ | ⟨e3, _ | ⟨e4, _ | ⟨e5, _ | ⟨e6, et⟩⟩⟩⟩⟩⟩ <;>
    simp at hl5
  have hall : (['3', d1, d2, '1', e1, e2, e3, e4, e5] :
      List Char).all Char.isDigit = true := by
    simp [List.all_cons] at ha2 ha5 ⊢
    simp +decide [ha2, ha5]
  have hform : ('3' :: [d1, d2] ++ '1' :: [e1, e2, e3, e4, e5] : List Char)
      = ['3', d1, d2, '1', e1, e2, e3, e4, e5] := by simp
  refine ⟨['3', d1, d2, '1', e1, e2, e3, e4, e5],
    pfx ++ [d2, d1, e1, e2, e3, e4, e5], ?_, ?_, ?_⟩
  · rw [heq, hform]
  · exact convertHafasToEFA_explicit '3' d1 d2 '1' e1 e2 e3 e4 e5 pfx
      hall rfl hp hpd
  · simp [hp]

/-! ## Claim theorems -/

/-- C1, counterexample.  The claim says `CombineWalks` on
`[WALK(10), WALK(20), BUS, WALK(50)]` yields `[WALK(30), BUS, WALK(50)]`.
In fact the merged leading walk has distance 30, which is not `> 40`, so
the pruning loop drops it: the result is `[BUS, WALK(50)]`, a list of two
legs — not three as claimed. -/
theorem claim_c1_counterexample :
    ((demoTrip [demoWalk 10 "a", demoWalk 20 "b", demoBus "B1",
      demoWalk 50 "c"]).CombineWalks).Legs
      = [demoBus "B1", demoWalk 50 "c"] ∧
    ((demoTrip [demoWalk 10 "a", demoWalk 20 "b", demoBus "B1",
      demoWalk 50 "c"]).CombineWalks).Legs.length ≠ 3 := by
  constructor
  · decide
  · decide

/-- C1, amended.  On `[WALK(10), WALK(20), BUS, WALK(50)]` the merge loop
does produce `[WALK(30), BUS, WALK(50)]` (origin from the first walk,
destination from the second), but the merged leading walk of distance 30
is then pruned (30 is not `> 40`, and 40 < 50 so the trailing walk
survives): `CombineWalks` yields `[BUS, WALK(50)]`. -/
theorem claim_c1_amended :
    goMerge [demoWalk 10 "a", demoWalk 20 "b", demoBus "B1", demoWalk 50 "c"]
      = [{ demoWalk 10 "a" with Distance := 30, Destination := demoLoc "b" },
          demoBus "B1", demoWalk 50 "c"] ∧
    ((demoTrip [demoWalk 10 "a", demoWalk 20 "b", demoBus "B1",
      demoWalk 50 "c"]).CombineWalks).Legs
      = [demoBus "B1", demoWalk 50 "c"] := by
  constructor
  · decide
  · decide

/-- C2, confirmed.  `CombineWalks` equals the spec-side algorithm: merge
each maximal run of adjacent walks into one walk (distance = sum of the
run, origin from the first walk, destination from the last walk, non-walk
legs unchanged and in order: `specMergeRuns`), then retain a leg at
position `i` iff it is not a walk, or it is a non-intermediate walk with
distance > 40, or an intermediate walk with distance > 150, where
intermediate means a non-walk leg occurs before `i` and `i` is not the
last position (`retainAt`/`specPruneAux`).  In particular a walk of 100
between two transport legs is dropped, one of 200 is kept. -/
theorem claim_c2 :
    (∀ trip : Trip, (trip.CombineWalks).Legs = specCombineWalks trip.Legs) ∧
    combineWalksLegs [demoBus "B1", demoWalk 100 "m", demoBus "B2"]
      = [demoBus "B1", demoBus "B2"] ∧
    combineWalksLegs [demoBus "B1", demoWalk 200 "m", demoBus "B2"]
      = [demoBus "B1", demoWalk 200 "m", demoBus "B2"] := by
  refine ⟨fun trip => combineWalksLegs_eq_spec trip.Legs, ?_, ?_⟩
  · decide
  · decide

/-- C3, counterexample.  The claim says that with the delta flag false the
decoder returns the coordinate pairs unchanged, so `[1,2,3,4]` would give
`[(1,2),(3,4)]`.  In fact `LatLng` never reads `Delta` and always applies
the running sum: the non-delta polyline decodes to `[(1,2),(4,6)]`. -/
theorem claim_c3_counterexample :
    (Polyline.mk "" "" "" false [1, 2, 3, 4]).LatLng
      = some [(1, 2), (4, 6)] ∧
    (some [((1 : Rat), (2 : Rat)), (4, 6)]
      ≠ some [((1 : Rat), (2 : Rat)), (3, 4)]) := by
  constructor
  · norm_num [Polyline.LatLng, latLng, latLngPairs]
  · norm_num

/-- C3, amended.  The decoder ignores the delta flag entirely: for any two
polylines with the same coordinates, `LatLng` agrees regardless of
`Delta`, applying the running-sum decoding in both cases; concretely
`[1,2,3,4]` with delta false decodes to `[(1,2),(4,6)]`, not to the
re-shaped input. -/
theorem claim_c3_amended :
    (∀ (t d e : String) (delta : Bool) (crd : List Rat),
      (Polyline.mk t d e delta crd).LatLng = latLng crd) ∧
    (Polyline.mk "" "" "" false [1, 2, 3, 4]).LatLng
      = some [(1, 2), (4, 6)] := by
  refine ⟨fun t d e delta crd => rfl, ?_⟩
  norm_num [Polyline.LatLng, latLng, latLngPairs]

/-- C4, counterexample.  The claim says odd-length input fails with a
`MalformedPolyline` error surfaced to the caller without crashing.  The Go
method's signature has no error result and the repository defines no
`MalformedPolyline`; on `[1,2,3]` the final write indexes past the
allocated `len/2` pairs and the method panics with an index-out-of-range
runtime error (modelled as `none`): nothing is surfaced to the caller. -/
theorem claim_c4_counterexample :
    (Polyline.mk "" "" "" false [1, 2, 3]).LatLng = none := by
  norm_num [Polyline.LatLng, latLng]

/-- C4, amended.  For every odd-length coordinate sequence, `LatLng`
crashes with an index-out-of-range panic (modelled as `none`); no
`MalformedPolyline` error exists and no value is returned. -/
theorem claim_c4_amended (t d e : String) (b : Bool) (crd : List Rat)
    (hodd : crd.length % 2 = 1) :
    (Polyline.mk t d e b crd).LatLng = none :=
  latLng_odd_none crd hodd

/-- C4, witness: the amended claim at `[1,2,3]`. -/
theorem claim_c4_witness :
    ([(1 : Rat), 2, 3] : List Rat).length % 2 = 1 ∧
    (Polyline.mk "" "" "" false [1, 2, 3]).LatLng = none :=
  ⟨by norm_num, claim_c4_amended "" "" "" false [1, 2, 3] (by norm_num)⟩

/-- C5, counterexample.  The claim says that on `[WALK, BUS, WALK]` the
visitor call at index 1 receives the zero-value placeholder as `prevLeg`.
In fact `prevLeg` is unconditionally set to the previous leg after each
call, so at index 1 it is the WALK leg at index 0, which differs from the
placeholder. -/
theorem claim_c5_counterexample :
    ((eachLegContextualCalls (demoTrip [demoWalk 100 "a", demoBus "B1",
      demoWalk 30 "c"]))[1]?).map LegCtx.prevLeg
      = some (demoWalk 100 "a") ∧
    demoWalk 100 "a" ≠ legZero := by
  constructor
  · decide
  · decide

/-- C5, amended.  On `[WALK, BUS, WALK]` the call at index 1 (the BUS leg)
receives the WALK leg at index 0 as `prevLeg`, while `prevTransportLeg`
and `nextTransportLeg` are both the zero-value placeholder (no transport
leg occurs before index 1 or after it), and `nextLeg` is the WALK leg at
index 2. -/
theorem claim_c5_amended :
    (eachLegContextualCalls (demoTrip [demoWalk 100 "a", demoBus "B1",
      demoWalk 30 "c"]))[1]?
      = some ⟨demoBus "B1", demoWalk 100 "a", legZero, demoWalk 30 "c",
          legZero, 1⟩ := by
  decide

/-- C6, confirmed.  For every even-length delta polyline, decoding
succeeds; the output has exactly half as many entries as the input, its
first pair equals the first two input values, and every subsequent pair's
components equal the corresponding input components plus the same-axis
components of the immediately preceding output pair; concretely, delta
input `[1,2,3,4]` decodes to `[(1,2),(4,6)]`. -/
theorem claim_c6 :
    (∀ (t d e : String) (crd : List Rat), crd.length % 2 = 0 →
      ∃ l, (Polyline.mk t d e true crd).LatLng = some l ∧
        l.length = crd.length / 2 ∧
        (∀ a b, crd[0]? = some a → crd[1]? = some b → l[0]? = some (a, b)) ∧
        (∀ k x y, l[k]? = some x → l[k + 1]? = some y →
          ∃ a b, crd[2 * (k + 1)]? = some a ∧
            crd[2 * (k + 1) + 1]? = some b ∧
            y = (x.1 + a, x.2 + b))) ∧
    (Polyline.mk "" "" "" true [1, 2, 3, 4]).LatLng
      = some [(1, 2), (4, 6)] := by
  constructor
  · intro t d e crd hev
    exact latLng_even_spec crd hev
  · norm_num [Polyline.LatLng, latLng, latLngPairs]

/-- C6, witness: the universally quantified part at the concrete delta
input `[1,2,3,4]`. -/
theorem claim_c6_witness :
    ∃ l, (Polyline.mk "" "" "" true [(1 : Rat), 2, 3, 4]).LatLng = some l ∧
      l.length = 2 := by
  obtain ⟨l, h1, h2, _, _⟩ := claim_c6.1 "" "" "" [1, 2, 3, 4] (by norm_num)
  exact ⟨l, h1, by simpa using h2⟩

/-- C7, counterexample.  The claim quantifies over every `shortID` of at
most 7 numeric characters; the empty string satisfies that description
(vacuously all-numeric, length 0 ≤ 7), yet `ConvertIDToHafas` fails on it
(`strconv.Atoi("")` errors) instead of succeeding with a 9-character
result. -/
theorem claim_c7_counterexample :
    ConvertIDToHafas [] = none ∧
    ([] : List Char).length ≤ 7 ∧
    ([] : List Char).all Char.isDigit = true := by
  refine ⟨?_, by decide, by decide⟩
  decide

/-- C7, amended.  For every *non-empty* shortID of at most 7 digit
characters, `ConvertIDToHafas` succeeds with a 9-character string of shape
`3 d d 1 e e e e e` (all digits): the last five digits carry the input's
value modulo 100000 and the two digits after the leading `3` carry the
value divided by 100000; every shortID longer than 7 characters is
returned unchanged.  (The empty string, allowed by the claim as stated,
instead makes the conversion fail.) -/
theorem claim_c7_amended :
    (∀ sid : List Char, sid ≠ [] → sid.length ≤ 7 →
      sid.all Char.isDigit = true →
      ∃ ds es, ConvertIDToHafas sid = some ('3' :: ds ++ '1' :: es) ∧
        ds.length = 2 ∧ es.length = 5 ∧
        ds.all Char.isDigit = true ∧ es.all Char.isDigit = true ∧
        digitsVal ds = digitsVal sid / 100000 ∧
        digitsVal es = digitsVal sid % 100000 ∧
        ('3' :: ds ++ '1' :: es).length = 9) ∧
    (∀ sid : List Char, sid.length > 7 → ConvertIDToHafas sid = some sid) := by
  constructor
  · intro sid hne hlen hd
    obtain ⟨ds, es, heq, hl2, hl5, ha2, ha5, hv2, hv5⟩ :=
      convertIDToHafas_digits sid hne hlen hd
    exact ⟨ds, es, heq, hl2, hl5, ha2, ha5, hv2, hv5, by simp [hl2, hl5]⟩
  · intro sid h
    rw [ConvertIDToHafas, if_pos h]

/-- C7, witness: the amended claim at `"4400"` (which converts to
`"300104400"`) and at the 8-character `"12345678"` (returned unchanged). -/
theorem claim_c7_witness :
    (∃ ds es, ConvertIDToHafas ['4', '4', '0', '0']
        = some ('3' :: ds ++ '1' :: es) ∧ ds.length = 2 ∧ es.length = 5) ∧
    ConvertIDToHafas ['1', '2', '3', '4', '5', '6', '7', '8']
      = some ['1', '2', '3', '4', '5', '6', '7', '8'] := by
  obtain ⟨ds, es, h1, h2, h3, _⟩ :=
    claim_c7_amended.1 ['4', '4', '0', '0'] (by decide) (by decide) (by decide)
  exact ⟨⟨ds, es, h1, h2, h3⟩, claim_c7_amended.2 _ (by decide)⟩

/-- C8, confirmed.  For every 9-character all-digit HAFAS ID starting with
`'3'` and every 9-character all-digit prefix, `ConvertHafasToEFA` succeeds
and returns exactly the prefix followed by the ID's characters at
0-indexed positions 2,1,4,5,6,7,8 (16 characters in total); concretely
`ConvertHafasToEFA "300104400" "909100100" = "9091001000004400"`. -/
theorem claim_c8 :
    (∀ (hafasID pfx : List Char) (h9 : hafasID.length = 9),
      hafasID.all Char.isDigit = true → hafasID.head? = some '3' →
      pfx.length = 9 → pfx.all Char.isDigit = true →
      ∃ out, ConvertHafasToEFA hafasID pfx = some out ∧
        out = pfx ++ [hafasID.get ⟨2, by omega⟩, hafasID.get ⟨1, by omega⟩,
          hafasID.get ⟨4, by omega⟩, hafasID.get ⟨5, by omega⟩,
          hafasID.get ⟨6, by omega⟩, hafasID.get ⟨7, by omega⟩,
          hafasID.get ⟨8, by omega⟩] ∧
        out.length = 16) ∧
    ConvertHafasToEFA ['3', '0', '0', '1', '0', '4', '4', '0', '0']
        ['9', '0', '9', '1', '0', '0', '1', '0', '0']
      = some ['9', '0', '9', '1', '0', '0', '1', '0', '0', '0', '0', '0',
          '4', '4', '0', '0'] := by
  constructor
  · intro hafasID pfx h9 hd hh hp hpd
    rcases hafasID with _ | ⟨x, _ | ⟨f, _ | ⟨g, _ | ⟨y, _ | ⟨e, _ | ⟨d,
      _ | ⟨c, _ | ⟨b, _ | ⟨a, _ | ⟨z, t⟩⟩⟩⟩⟩⟩⟩⟩⟩⟩ <;> simp at h9
    have hx : x = '3' := by
      simp at hh
      exact hh
    refine ⟨_, convertHafasToEFA_explicit x f g y e d c b a pfx hd hx hp hpd,
      rfl, by simp [hp]⟩
  · decide

/-- C8, witness: the universally quantified part at the concrete pair
(`"300104400"`, `"909100100"`). -/
theorem claim_c8_witness :
    ∃ out, ConvertHafasToEFA ['3', '0', '0', '1', '0', '4', '4', '0', '0']
        ['9', '0', '9', '1', '0', '0', '1', '0', '0'] = some out ∧
      out.length = 16 := by
  obtain ⟨out, h1, _, h3⟩ := claim_c8.1
    ['3', '0', '0', '1', '0', '4', '4', '0', '0']
    ['9', '0', '9', '1', '0', '0', '1', '0', '0']
    (by decide) (by decide) (by decide) (by decide) (by decide)
  exact ⟨out, h1, h3⟩

/-- C9, confirmed.  For every valid short ID (non-empty, at most 7 digit
characters) and every 9-character all-digit prefix, the composition
`ConvertHafasToEFA (ConvertIDToHafas shortID) prefix` succeeds and yields
a 16-character string; the functions are pure, so the output is the same
on every run (determinism holds by construction in this model). -/
theorem claim_c9 (sid pfx : List Char) (hne : sid ≠ [])
    (hlen : sid.length ≤ 7) (hd : sid.all Char.isDigit = true)
    (hp : pfx.length = 9) (hpd : pfx.all Char.isDigit = true) :
    ∃ h efa, ConvertIDToHafas sid = some h ∧
      ConvertHafasToEFA h pfx = some efa ∧ efa.length = 16 :=
  roundtrip_16 sid pfx hne hlen hd hp hpd

/-- C9, witness: the round trip at `"4400"` with prefix `"909100100"`. -/
theorem claim_c9_witness :
    ∃ h efa, ConvertIDToHafas ['4', '4', '0', '0'] = some h ∧
      ConvertHafasToEFA h ['9', '0', '9', '1', '0', '0', '1', '0', '0']
        = some efa ∧ efa.length = 16 :=
  claim_c9 ['4', '4', '0', '0'] ['9', '0', '9', '1', '0', '0', '1', '0', '0']
    (by decide) (by decide) (by decide) (by decide) (by decide)

/-- C10, confirmed.  `CombineWalks` is idempotent: applying it twice
leaves the leg list equal to the result of applying it once. -/
theorem claim_c10 (trip : Trip) :
    ((trip.CombineWalks).CombineWalks).Legs = (trip.CombineWalks).Legs :=
  combineWalksLegs_idem trip.Legs

end Trafiklab
